import Mathlib

/-!
Verification of the free-fermion encoding module (`ff_encodings.py`):
fermion-to-qubit encoding generators, symbolic Pauli algebra with phase
tracking, and dense matrix elevation via Kronecker products.

Modelling conventions.  A Python string of Pauli symbols is a `List Char`;
a phase (a fourth root of unity such as `1j`) is a Gaussian integer
(`GaussianInt`); a Python exception is a value of the explicit error type
`PyErr` threaded through `Except`.  Python's `"s" * k` string repetition
(which yields the empty string for `k < 0`) is `List.replicate` applied to
a truncated `Nat` subtraction, which agrees with it.  Loops that append to
an accumulator list become `List.foldl` over `List.range`.
-/

/-- Python exceptions raised by the module: `KeyError` from a failed
dictionary lookup, and `ValueError msg` from an explicit `raise`. -/
inductive PyErr where
  | keyError : PyErr
  | valueError : String → PyErr
deriving DecidableEq

deriving instance DecidableEq for Except

/-- The message of the `ValueError` raised by `multiply_symbolic_paulis`
on operands of different lengths. -/
def lengthMismatchMsg : String := "Pauli strings must be of the same length"

/-- The message of the `ValueError` raised by `kpa` on an empty list. -/
def emptyInputMsg : String := "Input list cannot be empty"

/-- The four valid Pauli symbols. -/
def validSymbols : List Char := ['I', 'X', 'Y', 'Z']

/-- Model of `Jordan_Wigner_encoding(num_qubits)` from the source: for each
`i < num_qubits` the loop appends `"Z"*i + "X" + "I"*(num_qubits-i-1)` and
then the same string with `"Y"` in place of `"X"`. -/
def Jordan_Wigner_encoding (num_qubits : Nat) : List (List Char) :=
  (List.range num_qubits).foldl (fun encoding i =>
    let JW_right_core := List.replicate i 'Z'
    let JW_left_core := List.replicate (num_qubits - i - 1) 'I'
    (encoding ++ [JW_right_core ++ ['X'] ++ JW_left_core]) ++
      [JW_right_core ++ ['Y'] ++ JW_left_core]) []

/-- Model of `Bravyi_Kitaev_encoding(num_qubits)` from the source: the loop body is
`pass`, so the accumulator is returned unchanged. -/
def Bravyi_Kitaev_encoding (num_qubits : Nat) : List (List Char) :=
  (List.range num_qubits).foldl (fun encoding _i => encoding) []

/-- Model of `Ternary_Tree_encoding(num_qubits)` from the source: the loop body is
`pass`, so the accumulator is returned unchanged. -/
def Ternary_Tree_encoding (num_qubits : Nat) : List (List Char) :=
  (List.range num_qubits).foldl (fun encoding _i => encoding) []

/-- Model of `Serpinski_Tree_encoding(num_qubits)` from the source: the loop body is
`pass`, so the accumulator is returned unchanged. -/
def Serpinski_Tree_encoding (num_qubits : Nat) : List (List Char) :=
  (List.range num_qubits).foldl (fun encoding _i => encoding) []

/-- Model of `Balanced_Jordan_Wigner_encoding(num_qubits)` from the source:
`ZI_string = "ZI" * (num_qubits // 2)`, `IZ_string = "IZ" * (num_qubits // 2)`,
and for each `i`, slices of these backgrounds surround an `"X"` (and `"Y"`)
at position `i`, the prefix background chosen by the parity of `i`. -/
def Balanced_Jordan_Wigner_encoding (num_qubits : Nat) : List (List Char) :=
  let ZI_string := (List.replicate (num_qubits / 2) ['Z', 'I']).flatten
  let IZ_string := (List.replicate (num_qubits / 2) ['I', 'Z']).flatten
  (List.range num_qubits).foldl (fun encoding i =>
    if i % 2 = 0 then
      (encoding ++ [IZ_string.take i ++ ['X'] ++ IZ_string.take (num_qubits - i - 1)]) ++
        [IZ_string.take i ++ ['Y'] ++ IZ_string.take (num_qubits - i - 1)]
    else
      (encoding ++ [ZI_string.take i ++ ['X'] ++ IZ_string.take (num_qubits - i - 1)]) ++
        [ZI_string.take i ++ ['Y'] ++ IZ_string.take (num_qubits - i - 1)]) []

/-- Model of `One_Local_encoding(num_qubits)` from the source: for each
`i < num_qubits // 2` the loop appends six strings, combining a local
`X`/`Y`/`Z` with a Jordan-Wigner-style parity tail of length
`ceil(num_qubits/2)` (modelled as `(num_qubits + 1) / 2`). -/
def One_Local_encoding (num_qubits : Nat) : List (List Char) :=
  (List.range (num_qubits / 2)).foldl (fun encoding i =>
    let left_core_1 := List.replicate (2 * i) 'I'
    let right_core_1 := List.replicate (num_qubits - 2 * i - 1) 'I'
    let left_core_2 := List.replicate (2 * i + 1) 'I'
    let right_core_2 := List.replicate (num_qubits - 2 * i - 2) 'I'
    let JW_right_core := List.replicate i 'Z'
    let JW_left_core := List.replicate ((num_qubits + 1) / 2 - i - 1) 'I'
    (((((encoding ++
      [left_core_1 ++ ['X'] ++ right_core_1 ++ JW_right_core ++ ['X'] ++ JW_left_core]) ++
      [left_core_1 ++ ['Y'] ++ right_core_1 ++ JW_right_core ++ ['X'] ++ JW_left_core]) ++
      [left_core_1 ++ ['Z'] ++ right_core_1 ++ JW_right_core ++ ['X'] ++ JW_left_core]) ++
      [left_core_2 ++ ['X'] ++ right_core_2 ++ JW_right_core ++ ['Y'] ++ JW_left_core]) ++
      [left_core_2 ++ ['Y'] ++ right_core_2 ++ JW_right_core ++ ['Y'] ++ JW_left_core]) ++
      [left_core_2 ++ ['Z'] ++ right_core_2 ++ JW_right_core ++ ['Y'] ++ JW_left_core]) []

/-- The `pauli_matrices` dictionary of `symbolic_to_matrix`: the canonical
2x2 matrix of each symbol, `None` modelling a `KeyError` lookup miss. -/
def pauli_matrices (c : Char) : Option (List (List GaussianInt)) :=
  if c = 'I' then some [[1, 0], [0, 1]]
  else if c = 'X' then some [[0, 1], [1, 0]]
  else if c = 'Y' then some [[0, ⟨0, -1⟩], [⟨0, 1⟩, 0]]
  else if c = 'Z' then some [[1, 0], [0, -1]]
  else none

/-- Model of `symbolic_to_matrix(symbolic_Pauli)` from the source: for a list of
Pauli strings, the list of their matrix-factor lists. -/
def symbolic_to_matrix (symbolic_Pauli : List (List Char)) :
    Option (List (List (List (List GaussianInt)))) :=
  symbolic_Pauli.mapM (fun s => s.mapM pauli_matrices)

/-- Model of `np.kron` on two dense matrices given as row lists: row `(i, k)` and
column `(j, l)` of the result hold `A[i][j] * B[k][l]`, the left factor
indexing the most significant block. -/
def kron {α : Type} [Mul α] (A B : List (List α)) : List (List α) :=
  A.flatMap fun ar => B.map fun br => ar.flatMap fun a => br.map fun b => a * b

/-- Model of `kpa(symbolic_pauli)` from the source: `ValueError` on the empty list,
otherwise the left fold of `np.kron` over the list starting from its head. -/
def kpa {α : Type} [Mul α] (symbolic_pauli : List (List (List α))) :
    Except PyErr (List (List α)) :=
  match symbolic_pauli with
  | [] => .error (.valueError emptyInputMsg)
  | m :: rest => .ok (rest.foldl kron m)

/-- The `pauli_mult` dictionary of `multiply_paulis`, as a lookup:
`none` models a `KeyError`. -/
def pauli_mult (p : Char × Char) : Option (GaussianInt × Char) :=
  if p = ('X', 'Y') then some (⟨0, 1⟩, 'Z')
  else if p = ('Y', 'X') then some (⟨0, -1⟩, 'Z')
  else if p = ('Y', 'Z') then some (⟨0, 1⟩, 'X')
  else if p = ('Z', 'Y') then some (⟨0, -1⟩, 'X')
  else if p = ('Z', 'X') then some (⟨0, 1⟩, 'Y')
  else if p = ('X', 'Z') then some (⟨0, -1⟩, 'Y')
  else none

/-- Model of `multiply_paulis(p1, p2, phase=False)` from the source: `I` returns the
other operand, equal operands return `I`, otherwise the dictionary lookup
(raising `KeyError` on a miss) supplies the symbol, phase discarded. -/
def multiply_paulis (p1 p2 : Char) : Except PyErr Char :=
  if p1 = 'I' then .ok p2
  else if p2 = 'I' then .ok p1
  else if p1 = p2 then .ok 'I'
  else match pauli_mult (p1, p2) with
    | some r => .ok r.2
    | none => .error .keyError

/-- Model of `multiply_paulis(p1, p2, phase=True)` from the source: same cases, the
first three with phase `1`, the last taking the dictionary's phase. -/
def multiply_paulis_phase (p1 p2 : Char) : Except PyErr (GaussianInt × Char) :=
  if p1 = 'I' then .ok (1, p2)
  else if p2 = 'I' then .ok (1, p1)
  else if p1 = p2 then .ok (1, 'I')
  else match pauli_mult (p1, p2) with
    | some r => .ok r
    | none => .error .keyError

/-- The loop of `multiply_symbolic_paulis` with `return_phase=True`:
accumulate the product of per-site phases and append per-site symbols,
propagating any exception from `multiply_paulis`. -/
def msp_loop_phase : List (Char × Char) → GaussianInt → List Char →
    Except PyErr (GaussianInt × List Char)
  | [], total_phase, result => .ok (total_phase, result)
  | (p1, p2) :: rest, total_phase, result =>
    match multiply_paulis_phase p1 p2 with
    | .error e => .error e
    | .ok pr => msp_loop_phase rest (total_phase * pr.1) (result ++ [pr.2])

/-- Model of `multiply_symbolic_paulis(pauli1, pauli2, return_phase=True)` from the
source: a length guard raising `ValueError`, then the zip loop. -/
def multiply_symbolic_paulis_phase (pauli1 pauli2 : List Char) :
    Except PyErr (GaussianInt × List Char) :=
  if pauli1.length ≠ pauli2.length then .error (.valueError lengthMismatchMsg)
  else msp_loop_phase (pauli1.zip pauli2) 1 []

/-- The loop of `multiply_symbolic_paulis` with `return_phase=False`. -/
def msp_loop : List (Char × Char) → List Char → Except PyErr (List Char)
  | [], result => .ok result
  | (p1, p2) :: rest, result =>
    match multiply_paulis p1 p2 with
    | .error e => .error e
    | .ok r => msp_loop rest (result ++ [r])

/-- Model of `multiply_symbolic_paulis(pauli1, pauli2, return_phase=False)` from the
source. -/
def multiply_symbolic_paulis (pauli1 pauli2 : List Char) :
    Except PyErr (List Char) :=
  if pauli1.length ≠ pauli2.length then .error (.valueError lengthMismatchMsg)
  else msp_loop (pauli1.zip pauli2) []


/-! ### Spec-side comparison definitions -/

/-- The specification's single-symbol result table (section 4.1): `I` is
absorbed, equal symbols give `I`, and distinct non-identity symbols give
the third symbol (`X·Y = Z`, `Y·Z = X`, `Z·X = Y` in either order). -/
def specMul (a b : Char) : Char :=
  if a = 'I' then b
  else if b = 'I' then a
  else if a = b then 'I'
  else if (a, b) = ('X', 'Y') ∨ (a, b) = ('Y', 'X') then 'Z'
  else if (a, b) = ('Y', 'Z') ∨ (a, b) = ('Z', 'Y') then 'X'
  else if (a, b) = ('Z', 'X') ∨ (a, b) = ('X', 'Z') then 'Y'
  else ' '

/-- The specification's phase table: `+i` on the forward cyclic pairs
`XY`, `YZ`, `ZX`, `-i` on the reverse pairs, and `1` otherwise
(identity operand or equal operands). -/
def specPhase (a b : Char) : GaussianInt :=
  if (a, b) = ('X', 'Y') ∨ (a, b) = ('Y', 'Z') ∨ (a, b) = ('Z', 'X') then ⟨0, 1⟩
  else if (a, b) = ('Y', 'X') ∨ (a, b) = ('Z', 'Y') ∨ (a, b) = ('X', 'Z') then ⟨0, -1⟩
  else 1

/-- The spec's two-letter periodic background: `n` repetitions of the
pair `ab` (the "IZ"- or "ZI"-periodic string). -/
def periodicBG (a b : Char) (n : Nat) : List Char :=
  (List.replicate n [a, b]).flatten

/-! ### Helper lemmas -/

theorem foldl_append_of_body {β γ : Type} {f : List γ → β → List γ} {g : β → List γ}
    (h : ∀ acc i, f acc i = acc ++ g i) :
    ∀ (l : List β) (acc : List γ), l.foldl f acc = acc ++ l.flatMap g := by
  intro l
  induction l with
  | nil => intro acc; simp
  | cons i l ih => intro acc; simp [List.foldl_cons, h, ih]

theorem flatMap_length_uniform {β γ : Type} {f : β → List γ} (c : Nat) :
    ∀ (l : List β), (∀ x ∈ l, (f x).length = c) → (l.flatMap f).length = l.length * c := by
  intro l
  induction l with
  | nil => intro _; simp
  | cons x l ih =>
    intro h
    simp only [List.flatMap_cons, List.length_append, List.length_cons]
    rw [h x (List.mem_cons_self x l), ih (fun y hy => h y (List.mem_cons_of_mem x hy))]
    ring

theorem flatMap_getElem?_uniform {β γ : Type} {f : β → List γ} (c : Nat) :
    ∀ (l : List β), (∀ x ∈ l, (f x).length = c) → ∀ (i k : Nat), k < c →
      (l.flatMap f)[i * c + k]? = l[i]?.bind fun x => (f x)[k]? := by
  intro l
  induction l with
  | nil => intro _ i k _; simp
  | cons x l ih =>
    intro h i k hk
    have hx : (f x).length = c := h x (List.mem_cons_self x l)
    rw [List.flatMap_cons]
    cases i with
    | zero =>
      rw [Nat.zero_mul, Nat.zero_add, List.getElem?_append_left (by omega)]
      simp
    | succ i =>
      rw [List.getElem?_append_right (by rw [hx]; calc
            c ≤ (i + 1) * c := Nat.le_mul_of_pos_left c (Nat.succ_pos i)
            _ ≤ (i + 1) * c + k := Nat.le_add_right ..)]
      have harith : (i + 1) * c + k - (f x).length = i * c + k := by
        rw [hx]; calc (i + 1) * c + k - c = i * c + c + k - c := by ring_nf
          _ = i * c + k := by omega
      rw [harith, ih (fun y hy => h y (List.mem_cons_of_mem x hy)) i k hk]
      simp

/-- A fold whose body returns the accumulator unchanged yields the empty
starting list (the three stub encodings). -/
theorem stub_foldl_eq : ∀ (n : Nat),
    (List.range n).foldl (fun (encoding : List (List Char)) _ => encoding) [] = [] := by
  intro n
  rw [foldl_append_of_body (g := fun _ => []) (fun acc _ => by simp)]
  simp

/-- The body appended by one iteration of the Jordan-Wigner loop. -/
def jwBody (num_qubits i : Nat) : List (List Char) :=
  [List.replicate i 'Z' ++ ['X'] ++ List.replicate (num_qubits - i - 1) 'I',
   List.replicate i 'Z' ++ ['Y'] ++ List.replicate (num_qubits - i - 1) 'I']

theorem jw_eq_flatMap (num_qubits : Nat) :
    Jordan_Wigner_encoding num_qubits = (List.range num_qubits).flatMap (jwBody num_qubits) := by
  unfold Jordan_Wigner_encoding
  rw [foldl_append_of_body (g := jwBody num_qubits) (fun acc i => by simp [jwBody])]
  simp

/-- The body appended by one iteration of the balanced Jordan-Wigner loop. -/
def bjwBody (num_qubits i : Nat) : List (List Char) :=
  let ZI_string := (List.replicate (num_qubits / 2) ['Z', 'I']).flatten
  let IZ_string := (List.replicate (num_qubits / 2) ['I', 'Z']).flatten
  if i % 2 = 0 then
    [IZ_string.take i ++ ['X'] ++ IZ_string.take (num_qubits - i - 1),
     IZ_string.take i ++ ['Y'] ++ IZ_string.take (num_qubits - i - 1)]
  else
    [ZI_string.take i ++ ['X'] ++ IZ_string.take (num_qubits - i - 1),
     ZI_string.take i ++ ['Y'] ++ IZ_string.take (num_qubits - i - 1)]

theorem bjw_eq_flatMap (num_qubits : Nat) :
    Balanced_Jordan_Wigner_encoding num_qubits =
      (List.range num_qubits).flatMap (bjwBody num_qubits) := by
  unfold Balanced_Jordan_Wigner_encoding
  rw [foldl_append_of_body (g := bjwBody num_qubits) (fun acc i => by
    by_cases h : i % 2 = 0 <;> simp [bjwBody, h])]
  simp

/-- The body appended by one iteration of the 1-local loop. -/
def oneLocalBody (num_qubits i : Nat) : List (List Char) :=
  let left_core_1 := List.replicate (2 * i) 'I'
  let right_core_1 := List.replicate (num_qubits - 2 * i - 1) 'I'
  let left_core_2 := List.replicate (2 * i + 1) 'I'
  let right_core_2 := List.replicate (num_qubits - 2 * i - 2) 'I'
  let JW_right_core := List.replicate i 'Z'
  let JW_left_core := List.replicate ((num_qubits + 1) / 2 - i - 1) 'I'
  [left_core_1 ++ ['X'] ++ right_core_1 ++ JW_right_core ++ ['X'] ++ JW_left_core,
   left_core_1 ++ ['Y'] ++ right_core_1 ++ JW_right_core ++ ['X'] ++ JW_left_core,
   left_core_1 ++ ['Z'] ++ right_core_1 ++ JW_right_core ++ ['X'] ++ JW_left_core,
   left_core_2 ++ ['X'] ++ right_core_2 ++ JW_right_core ++ ['Y'] ++ JW_left_core,
   left_core_2 ++ ['Y'] ++ right_core_2 ++ JW_right_core ++ ['Y'] ++ JW_left_core,
   left_core_2 ++ ['Z'] ++ right_core_2 ++ JW_right_core ++ ['Y'] ++ JW_left_core]

theorem one_local_eq_flatMap (num_qubits : Nat) :
    One_Local_encoding num_qubits =
      (List.range (num_qubits / 2)).flatMap (oneLocalBody num_qubits) := by
  unfold One_Local_encoding
  rw [foldl_append_of_body (g := oneLocalBody num_qubits) (fun acc i => by
    simp [oneLocalBody])]
  simp

/-- For valid symbols, both modes of `multiply_paulis` succeed and agree
with the spec tables (checked over all sixteen cases). -/
theorem mp_table_ok : ∀ a ∈ validSymbols, ∀ b ∈ validSymbols,
    multiply_paulis_phase a b = .ok (specPhase a b, specMul a b) ∧
    multiply_paulis a b = .ok (specMul a b) := by decide

/-- The only exception `multiply_paulis_phase` can raise is a `KeyError`. -/
theorem multiply_paulis_phase_error_shape (a b : Char) (e : PyErr)
    (h : multiply_paulis_phase a b = .error e) : e = .keyError := by
  unfold multiply_paulis_phase at h
  split at h
  · cases h
  · split at h
    · cases h
    · split at h
      · cases h
      · split at h
        · cases h
        · cases h; rfl

/-- The only exception `multiply_paulis` can raise is a `KeyError`. -/
theorem multiply_paulis_error_shape (a b : Char) (e : PyErr)
    (h : multiply_paulis a b = .error e) : e = .keyError := by
  unfold multiply_paulis at h
  split at h
  · cases h
  · split at h
    · cases h
    · split at h
      · cases h
      · split at h
        · cases h
        · cases h; rfl

/-- The phase-tracking loop never raises a `ValueError`. -/
theorem msp_loop_phase_no_valueError :
    ∀ (ps : List (Char × Char)) (tp : GaussianInt) (res : List Char) (m : String),
      msp_loop_phase ps tp res ≠ .error (.valueError m) := by
  intro ps
  induction ps with
  | nil => intro tp res m h; cases h
  | cons p ps ih =>
    intro tp res m h
    obtain ⟨p1, p2⟩ := p
    unfold msp_loop_phase at h
    split at h
    · rename_i e he
      cases h
      exact absurd (multiply_paulis_phase_error_shape p1 p2 _ he) (by simp)
    · exact ih _ _ m h

/-- The plain loop never raises a `ValueError`. -/
theorem msp_loop_no_valueError :
    ∀ (ps : List (Char × Char)) (res : List Char) (m : String),
      msp_loop ps res ≠ .error (.valueError m) := by
  intro ps
  induction ps with
  | nil => intro res m h; cases h
  | cons p ps ih =>
    intro res m h
    obtain ⟨p1, p2⟩ := p
    unfold msp_loop at h
    split at h
    · rename_i e he
      cases h
      exact absurd (multiply_paulis_error_shape p1 p2 _ he) (by simp)
    · exact ih _ m h

/-- The phase-tracking loop on valid symbol pairs: the accumulated phase is
multiplied by every per-site phase and the per-site symbols are appended. -/
theorem msp_loop_phase_spec :
    ∀ (ps : List (Char × Char)), (∀ p ∈ ps, p.1 ∈ validSymbols ∧ p.2 ∈ validSymbols) →
    ∀ (tp : GaussianInt) (res : List Char),
      msp_loop_phase ps tp res =
        .ok (tp * (ps.map fun p => specPhase p.1 p.2).prod,
             res ++ ps.map fun p => specMul p.1 p.2) := by
  intro ps
  induction ps with
  | nil => intro _ tp res; simp [msp_loop_phase]
  | cons p ps ih =>
    intro h tp res
    obtain ⟨a, b⟩ := p
    obtain ⟨h1, h2⟩ := h (a, b) (List.mem_cons_self ..)
    have hok := (mp_table_ok a h1 b h2).1
    simp only [msp_loop_phase, hok]
    rw [ih (fun q hq => h q (List.mem_cons_of_mem _ hq))]
    simp [mul_assoc]

/-- The plain loop on valid symbol pairs appends the per-site symbols. -/
theorem msp_loop_spec :
    ∀ (ps : List (Char × Char)), (∀ p ∈ ps, p.1 ∈ validSymbols ∧ p.2 ∈ validSymbols) →
    ∀ (res : List Char),
      msp_loop ps res = .ok (res ++ ps.map fun p => specMul p.1 p.2) := by
  intro ps
  induction ps with
  | nil => intro _ res; simp [msp_loop]
  | cons p ps ih =>
    intro h res
    obtain ⟨a, b⟩ := p
    obtain ⟨h1, h2⟩ := h (a, b) (List.mem_cons_self ..)
    have hok := (mp_table_ok a h1 b h2).2
    simp only [msp_loop, hok]
    rw [ih (fun q hq => h q (List.mem_cons_of_mem _ hq))]
    simp

/-! ### Claim theorems -/

/-- C1: single-Pauli multiplication obeys the stated table for all operands
in `{I, X, Y, Z}`: an `I` operand returns the other operand with phase `1`,
equal operands return `I` with phase `1`, and distinct non-identity operands
return the third symbol with phase `+i` in forward cyclic order
(`X·Y = iZ`, `Y·Z = iX`, `Z·X = iY`) and `-i` in reverse order; with the
phase flag off the same symbol is returned without the phase. -/
theorem multiply_paulis_table : ∀ p1 ∈ validSymbols, ∀ p2 ∈ validSymbols,
    multiply_paulis_phase p1 p2 = .ok (specPhase p1 p2, specMul p1 p2) ∧
    multiply_paulis p1 p2 = .ok (specMul p1 p2) := by decide

/-- Witness for C1 at the concrete operands `X`, `Y`. -/
theorem multiply_paulis_table_witness :
    'X' ∈ validSymbols ∧ 'Y' ∈ validSymbols ∧
    (multiply_paulis_phase 'X' 'Y' = .ok (specPhase 'X' 'Y', specMul 'X' 'Y') ∧
      multiply_paulis 'X' 'Y' = .ok (specMul 'X' 'Y')) :=
  ⟨by decide, by decide, multiply_paulis_table 'X' (by decide) 'Y' (by decide)⟩

/-- C2: on equal-length strings of valid symbols, `multiply_symbolic_paulis`
returns the elementwise product string, and with the phase flag the single
global phase equal to the product of the per-position phases. -/
theorem multiply_symbolic_paulis_elementwise (pauli1 pauli2 : List Char)
    (h1 : ∀ c ∈ pauli1, c ∈ validSymbols) (h2 : ∀ c ∈ pauli2, c ∈ validSymbols)
    (hlen : pauli1.length = pauli2.length) :
    multiply_symbolic_paulis_phase pauli1 pauli2 =
      .ok (((pauli1.zip pauli2).map fun p => specPhase p.1 p.2).prod,
           (pauli1.zip pauli2).map fun p => specMul p.1 p.2) ∧
    multiply_symbolic_paulis pauli1 pauli2 =
      .ok ((pauli1.zip pauli2).map fun p => specMul p.1 p.2) := by
  have hmem : ∀ p ∈ pauli1.zip pauli2, p.1 ∈ validSymbols ∧ p.2 ∈ validSymbols := by
    intro p hp
    obtain ⟨a, b⟩ := p
    obtain ⟨ha, hb⟩ := List.of_mem_zip hp
    exact ⟨h1 a ha, h2 b hb⟩
  constructor
  · unfold multiply_symbolic_paulis_phase
    rw [if_neg (by omega)]
    rw [msp_loop_phase_spec (pauli1.zip pauli2) hmem 1 []]
    simp
  · unfold multiply_symbolic_paulis
    rw [if_neg (by omega)]
    rw [msp_loop_spec (pauli1.zip pauli2) hmem []]
    simp

/-- Witness for C2: multiplying `"XY"` by `"YX"` with phase reporting gives
total phase `1` (from `i · (-i)`) and result `"ZZ"`. -/
theorem multiply_symbolic_paulis_elementwise_witness :
    multiply_symbolic_paulis_phase ['X', 'Y'] ['Y', 'X'] = .ok (1, ['Z', 'Z']) ∧
    multiply_symbolic_paulis ['X', 'Y'] ['Y', 'X'] = .ok ['Z', 'Z'] := by
  have h := multiply_symbolic_paulis_elementwise ['X', 'Y'] ['Y', 'X']
    (by decide) (by decide) (by decide)
  exact ⟨h.1.trans (by decide), h.2.trans (by decide)⟩

/-- C5 counterexample: an invalid operand does NOT make `multiply_paulis`
fail when the other operand is `I` or when the operands are equal; a result
is returned instead of an `InvalidSymbol` error. -/
theorem multiply_paulis_invalid_silent :
    multiply_paulis 'I' 'Q' = .ok 'Q' ∧
    multiply_paulis_phase 'I' 'Q' = .ok (1, 'Q') ∧
    multiply_paulis 'Q' 'Q' = .ok 'I' ∧
    multiply_paulis_phase 'Q' 'Q' = .ok (1, 'I') := by decide

/-- C5 amended: an invalid operand causes an error (a `KeyError` from the
multiplication-table lookup, the only validation present) exactly in the
residual case: neither operand is `I` and the operands differ.  When the
first operand is `I` the second is returned with phase `1` unvalidated, when
the second operand is `I` the first is returned with phase `1` unvalidated
(also when the first is `I`, where both branches agree), and equal operands
return `I` with phase `1` unvalidated. -/
theorem multiply_paulis_invalid_lookup_only (p1 p2 : Char)
    (h1 : p1 ≠ 'I') (h2 : p2 ≠ 'I') (h3 : p1 ≠ p2)
    (h4 : p1 ∉ validSymbols ∨ p2 ∉ validSymbols) :
    (multiply_paulis p1 p2 = .error .keyError ∧
      multiply_paulis_phase p1 p2 = .error .keyError) ∧
    (∀ q : Char, multiply_paulis 'I' q = .ok q ∧
      multiply_paulis_phase 'I' q = .ok (1, q)) ∧
    (∀ q : Char, multiply_paulis q 'I' = .ok q ∧
      multiply_paulis_phase q 'I' = .ok (1, q)) ∧
    (∀ q : Char, multiply_paulis q q = .ok 'I' ∧
      multiply_paulis_phase q q = .ok (1, 'I')) := by
  have hnone : pauli_mult (p1, p2) = none := by
    rcases h4 with h | h <;>
    · simp only [validSymbols, List.mem_cons, List.not_mem_nil, or_false] at h
      push_neg at h
      obtain ⟨hI, hX, hY, hZ⟩ := h
      simp [pauli_mult, Prod.ext_iff, hX, hY, hZ]
  refine ⟨⟨?_, ?_⟩, ?_, ?_, ?_⟩
  · simp [multiply_paulis, h1, h2, h3, hnone]
  · simp [multiply_paulis_phase, h1, h2, h3, hnone]
  · intro q
    constructor <;> simp [multiply_paulis, multiply_paulis_phase]
  · intro q
    by_cases hq : q = 'I' <;>
      constructor <;> simp [multiply_paulis, multiply_paulis_phase, hq]
  · intro q
    by_cases hq : q = 'I' <;>
      constructor <;> simp [multiply_paulis, multiply_paulis_phase, hq]

/-- Witness for the amended C5 at the invalid pair `('Q', 'R')`. -/
theorem multiply_paulis_invalid_lookup_only_witness :
    ('Q' ∉ validSymbols ∨ 'R' ∉ validSymbols) ∧
    ((multiply_paulis 'Q' 'R' = .error .keyError ∧
       multiply_paulis_phase 'Q' 'R' = .error .keyError) ∧
     (∀ q : Char, multiply_paulis 'I' q = .ok q ∧
       multiply_paulis_phase 'I' q = .ok (1, q)) ∧
     (∀ q : Char, multiply_paulis q 'I' = .ok q ∧
       multiply_paulis_phase q 'I' = .ok (1, q)) ∧
     (∀ q : Char, multiply_paulis q q = .ok 'I' ∧
       multiply_paulis_phase q q = .ok (1, 'I'))) :=
  ⟨Or.inl (by decide),
   multiply_paulis_invalid_lookup_only 'Q' 'R' (by decide) (by decide) (by decide)
     (Or.inl (by decide))⟩

/-- C6: `multiply_symbolic_paulis` (both modes) fails with the
length-mismatch `ValueError` precisely when the operand strings have
different lengths; in particular `"XY" * "X"` raises it, and no equal-length
pair of strings ever raises it. -/
theorem length_mismatch_iff (pauli1 pauli2 : List Char) :
    (multiply_symbolic_paulis_phase pauli1 pauli2 =
        .error (.valueError lengthMismatchMsg) ↔ pauli1.length ≠ pauli2.length) ∧
    (multiply_symbolic_paulis pauli1 pauli2 =
        .error (.valueError lengthMismatchMsg) ↔ pauli1.length ≠ pauli2.length) ∧
    multiply_symbolic_paulis_phase ['X', 'Y'] ['X'] =
      .error (.valueError lengthMismatchMsg) ∧
    multiply_symbolic_paulis ['X', 'Y'] ['X'] =
      .error (.valueError lengthMismatchMsg) := by
  refine ⟨⟨?_, ?_⟩, ⟨?_, ?_⟩, by decide, by decide⟩
  · intro h
    by_contra heq
    unfold multiply_symbolic_paulis_phase at h
    rw [if_neg (by omega)] at h
    exact msp_loop_phase_no_valueError _ _ _ _ h
  · intro h
    unfold multiply_symbolic_paulis_phase
    rw [if_pos h]
  · intro h
    by_contra heq
    unfold multiply_symbolic_paulis at h
    rw [if_neg (by omega)] at h
    exact msp_loop_no_valueError _ _ _ h
  · intro h
    unfold multiply_symbolic_paulis
    rw [if_pos h]

/-- Witness for C6: the concrete mismatched pair from the spec. -/
theorem length_mismatch_iff_witness :
    multiply_symbolic_paulis_phase ['X', 'Y'] ['X'] =
      .error (.valueError lengthMismatchMsg) :=
  (length_mismatch_iff ['X', 'Y'] ['X']).2.2.1

/-- C8: for each single symbol `s` in `{I, X, Y, Z}`, elevating the
length-1 string `s` to its matrix-factor list and Kronecker-reducing that
list yields exactly the symbol's canonical 2x2 matrix: the identity for
`I`, the off-diagonal swap for `X`, the off-diagonal imaginary-antisymmetric
matrix for `Y`, and the diagonal `(1, -1)` matrix for `Z`. -/
theorem single_symbol_roundtrip :
    (symbolic_to_matrix [['I']] = some [[[[1, 0], [0, 1]]]] ∧
      kpa ([[[1, 0], [0, 1]]] : List (List (List GaussianInt))) =
        .ok [[1, 0], [0, 1]]) ∧
    (symbolic_to_matrix [['X']] = some [[[[0, 1], [1, 0]]]] ∧
      kpa ([[[0, 1], [1, 0]]] : List (List (List GaussianInt))) =
        .ok [[0, 1], [1, 0]]) ∧
    (symbolic_to_matrix [['Y']] = some [[[[0, ⟨0, -1⟩], [⟨0, 1⟩, 0]]]] ∧
      kpa ([[[0, ⟨0, -1⟩], [⟨0, 1⟩, 0]]] : List (List (List GaussianInt))) =
        .ok [[0, ⟨0, -1⟩], [⟨0, 1⟩, 0]]) ∧
    (symbolic_to_matrix [['Z']] = some [[[[1, 0], [0, -1]]]] ∧
      kpa ([[[1, 0], [0, -1]]] : List (List (List GaussianInt))) =
        .ok [[1, 0], [0, -1]]) :=
  ⟨⟨by decide, by decide⟩, ⟨by decide, by decide⟩, ⟨by decide, by decide⟩,
    by decide, by decide⟩

/-- C10: the Bravyi-Kitaev, Ternary Tree, and Serpinski Tree generators
return the empty list for every register size, raising no error. -/
theorem stub_encodings_empty (num_qubits : Nat) :
    Bravyi_Kitaev_encoding num_qubits = [] ∧
    Ternary_Tree_encoding num_qubits = [] ∧
    Serpinski_Tree_encoding num_qubits = [] :=
  ⟨stub_foldl_eq num_qubits, stub_foldl_eq num_qubits, stub_foldl_eq num_qubits⟩

theorem length_flatten_replicate {γ : Type} (k : Nat) (s : List γ) :
    ((List.replicate k s).flatten).length = k * s.length := by
  induction k with
  | zero => simp
  | succ k ih =>
    rw [List.replicate_succ, List.flatten_cons, List.length_append, ih]
    ring

theorem take_flatten_replicate_eq {γ : Type} (s : List γ) (a b k : Nat) (hab : a ≤ b)
    (hk : k ≤ a * s.length) :
    ((List.replicate a s).flatten).take k = ((List.replicate b s).flatten).take k := by
  have hsplit : List.replicate b s = List.replicate a s ++ List.replicate (b - a) s := by
    rw [← List.replicate_add]
    congr 1
    omega
  rw [hsplit, List.flatten_append,
    List.take_append_of_le_length (by rw [length_flatten_replicate]; exact hk)]

/-- C3: the Jordan-Wigner generator returns `2n` strings of length `n`;
the string at position `2i` is `i` copies of `Z`, then `X`, then identity
fill, and the one at `2i + 1` is the same with `Y`; for `n = 2` the output
is `["XI", "YI", "ZX", "ZY"]`. -/
theorem jordan_wigner_structure (num_qubits i : Nat) (h : i < num_qubits) :
    (Jordan_Wigner_encoding num_qubits).length = 2 * num_qubits ∧
    (Jordan_Wigner_encoding num_qubits)[2 * i]? =
      some (List.replicate i 'Z' ++ ['X'] ++ List.replicate (num_qubits - i - 1) 'I') ∧
    (Jordan_Wigner_encoding num_qubits)[2 * i + 1]? =
      some (List.replicate i 'Z' ++ ['Y'] ++ List.replicate (num_qubits - i - 1) 'I') ∧
    (∀ s ∈ Jordan_Wigner_encoding num_qubits, s.length = num_qubits) ∧
    Jordan_Wigner_encoding 2 = [['X', 'I'], ['Y', 'I'], ['Z', 'X'], ['Z', 'Y']] := by
  have hlen2 : ∀ x ∈ List.range num_qubits, (jwBody num_qubits x).length = 2 := by
    intro x _
    simp [jwBody]
  refine ⟨?_, ?_, ?_, ?_, by decide⟩
  · rw [jw_eq_flatMap, flatMap_length_uniform 2 _ hlen2, List.length_range]
    ring
  · rw [jw_eq_flatMap, show 2 * i = i * 2 + 0 by ring,
      flatMap_getElem?_uniform 2 _ hlen2 i 0 (by omega), List.getElem?_range h]
    simp [jwBody]
  · rw [jw_eq_flatMap, show 2 * i + 1 = i * 2 + 1 by ring,
      flatMap_getElem?_uniform 2 _ hlen2 i 1 (by omega), List.getElem?_range h]
    simp [jwBody]
  · intro s hs
    rw [jw_eq_flatMap, List.mem_flatMap] at hs
    obtain ⟨a, ha, hsa⟩ := hs
    rw [List.mem_range] at ha
    simp only [jwBody, List.mem_cons, List.not_mem_nil, or_false] at hsa
    rcases hsa with rfl | rfl <;>
    · simp only [List.length_append, List.length_replicate, List.length_cons,
        List.length_nil]
      omega

/-- Witness for C3 at `n = 2`, `i = 1`. -/
theorem jordan_wigner_structure_witness :
    (Jordan_Wigner_encoding 2)[2 * 1]? =
      some (List.replicate 1 'Z' ++ ['X'] ++ List.replicate (2 - 1 - 1) 'I') :=
  (jordan_wigner_structure 2 1 (by decide)).2.1

/-- C4 counterexample: the 1-local generator at register size 2 contains
the string `"XIX"`, whose length is 3, not 2 — so not every generated
string has length equal to the register size. -/
theorem one_local_length_counterexample :
    ['X', 'I', 'X'] ∈ One_Local_encoding 2 ∧
    ¬ (∀ s ∈ One_Local_encoding 2, s.length = 2) := by
  constructor
  · decide
  · decide

/-- C4 amended: the Jordan-Wigner and balanced Jordan-Wigner generators
produce strings of length exactly the register size `n`, but the 1-local
generator produces strings of length `n + ceil(n/2)`. -/
theorem encoding_string_lengths (num_qubits : Nat) :
    (∀ s ∈ Jordan_Wigner_encoding num_qubits, s.length = num_qubits) ∧
    (∀ s ∈ Balanced_Jordan_Wigner_encoding num_qubits, s.length = num_qubits) ∧
    (∀ s ∈ One_Local_encoding num_qubits,
      s.length = num_qubits + (num_qubits + 1) / 2) := by
  refine ⟨?_, ?_, ?_⟩
  · intro s hs
    rw [jw_eq_flatMap, List.mem_flatMap] at hs
    obtain ⟨a, ha, hsa⟩ := hs
    rw [List.mem_range] at ha
    simp only [jwBody, List.mem_cons, List.not_mem_nil, or_false] at hsa
    rcases hsa with rfl | rfl <;>
    · simp only [List.length_append, List.length_replicate, List.length_cons,
        List.length_nil]
      omega
  · intro s hs
    rw [bjw_eq_flatMap, List.mem_flatMap] at hs
    obtain ⟨a, ha, hsa⟩ := hs
    rw [List.mem_range] at ha
    by_cases hpar : a % 2 = 0 <;>
      simp only [bjwBody, hpar, if_true, if_false, List.mem_cons, List.not_mem_nil,
        or_false, reduceIte] at hsa <;>
      rcases hsa with rfl | rfl <;>
      · simp only [List.length_append, List.length_take, List.length_cons,
          List.length_nil, length_flatten_replicate]
        omega
  · intro s hs
    rw [one_local_eq_flatMap, List.mem_flatMap] at hs
    obtain ⟨a, ha, hsa⟩ := hs
    rw [List.mem_range] at ha
    simp only [oneLocalBody, List.mem_cons, List.not_mem_nil, or_false] at hsa
    rcases hsa with rfl | rfl | rfl | rfl | rfl | rfl <;>
    · simp only [List.length_append, List.length_replicate, List.length_cons,
        List.length_nil]
      omega

/-- Witness for the amended C4 at the string `"XIX"` of
`One_Local_encoding 2`. -/
theorem encoding_string_lengths_witness :
    ['X', 'I', 'X'] ∈ One_Local_encoding 2 ∧
    (['X', 'I', 'X'] : List Char).length = 2 + (2 + 1) / 2 :=
  ⟨by decide, (encoding_string_lengths 2).2.2 ['X', 'I', 'X'] (by decide)⟩

/-- C9: the balanced Jordan-Wigner generator emits `2n` strings, an `X` and
a `Y` variant per qubit index `i` (at positions `2i` and `2i + 1`); the
prefix of length `i` is drawn from the "IZ"-periodic background when `i` is
even and from the "ZI"-periodic background when `i` is odd, and the suffix
of length `n - i - 1` is drawn from the "IZ"-periodic background, with `X`
or `Y` at position `i`. -/
theorem balanced_jw_structure (num_qubits i : Nat) (h : i < num_qubits) :
    (Balanced_Jordan_Wigner_encoding num_qubits).length = 2 * num_qubits ∧
    (Balanced_Jordan_Wigner_encoding num_qubits)[2 * i]? =
      some ((if i % 2 = 0 then periodicBG 'I' 'Z' num_qubits
             else periodicBG 'Z' 'I' num_qubits).take i ++
        ['X'] ++ (periodicBG 'I' 'Z' num_qubits).take (num_qubits - i - 1)) ∧
    (Balanced_Jordan_Wigner_encoding num_qubits)[2 * i + 1]? =
      some ((if i % 2 = 0 then periodicBG 'I' 'Z' num_qubits
             else periodicBG 'Z' 'I' num_qubits).take i ++
        ['Y'] ++ (periodicBG 'I' 'Z' num_qubits).take (num_qubits - i - 1)) := by
  have hlen2 : ∀ x ∈ List.range num_qubits, (bjwBody num_qubits x).length = 2 := by
    intro x _
    by_cases hx : x % 2 = 0 <;> simp [bjwBody, hx]
  have hdiv : num_qubits / 2 ≤ num_qubits := Nat.div_le_self ..
  have hik : i ≤ num_qubits / 2 * (['I', 'Z'] : List Char).length := by
    simp only [List.length_cons, List.length_nil]
    omega
  have hsuf : num_qubits - i - 1 ≤ num_qubits / 2 * (['I', 'Z'] : List Char).length := by
    simp only [List.length_cons, List.length_nil]
    omega
  have hikz : i ≤ num_qubits / 2 * (['Z', 'I'] : List Char).length := by
    simp only [List.length_cons, List.length_nil]
    omega
  refine ⟨?_, ?_, ?_⟩
  · rw [bjw_eq_flatMap, flatMap_length_uniform 2 _ hlen2, List.length_range]
    ring
  · rw [bjw_eq_flatMap, show 2 * i = i * 2 + 0 by ring,
      flatMap_getElem?_uniform 2 _ hlen2 i 0 (by omega), List.getElem?_range h]
    by_cases hpar : i % 2 = 0 <;>
      simp only [bjwBody, hpar, reduceIte, if_true, if_false, Option.some_bind,
        List.getElem?_cons_zero, periodicBG]
    · rw [take_flatten_replicate_eq ['I', 'Z'] (num_qubits / 2) num_qubits i hdiv hik,
        take_flatten_replicate_eq ['I', 'Z'] (num_qubits / 2) num_qubits
          (num_qubits - i - 1) hdiv hsuf]
    · rw [take_flatten_replicate_eq ['Z', 'I'] (num_qubits / 2) num_qubits i hdiv hikz,
        take_flatten_replicate_eq ['I', 'Z'] (num_qubits / 2) num_qubits
          (num_qubits - i - 1) hdiv hsuf]
  · rw [bjw_eq_flatMap, show 2 * i + 1 = i * 2 + 1 by ring,
      flatMap_getElem?_uniform 2 _ hlen2 i 1 (by omega), List.getElem?_range h]
    by_cases hpar : i % 2 = 0 <;>
      simp only [bjwBody, hpar, reduceIte, if_true, if_false, Option.some_bind,
        List.getElem?_cons_succ, List.getElem?_cons_zero, periodicBG]
    · rw [take_flatten_replicate_eq ['I', 'Z'] (num_qubits / 2) num_qubits i hdiv hik,
        take_flatten_replicate_eq ['I', 'Z'] (num_qubits / 2) num_qubits
          (num_qubits - i - 1) hdiv hsuf]
    · rw [take_flatten_replicate_eq ['Z', 'I'] (num_qubits / 2) num_qubits i hdiv hikz,
        take_flatten_replicate_eq ['I', 'Z'] (num_qubits / 2) num_qubits
          (num_qubits - i - 1) hdiv hsuf]

/-- Witness for C9 at `n = 4`, `i = 1` (odd index: "ZI"-periodic prefix). -/
theorem balanced_jw_structure_witness :
    (Balanced_Jordan_Wigner_encoding 4)[2 * 1]? =
      some ((if 1 % 2 = 0 then periodicBG 'I' 'Z' 4 else periodicBG 'Z' 'I' 4).take 1 ++
        ['X'] ++ (periodicBG 'I' 'Z' 4).take (4 - 1 - 1)) :=
  (balanced_jw_structure 4 1 (by decide)).2.1

/-- Entry `(i, j)` of a dense matrix given as a row list (`0` out of range). -/
def matEnt {α : Type} [Zero α] (A : List (List α)) (i j : Nat) : α :=
  (A.getD i []).getD j 0

/-- Predicate: `A` is a well-formed `p × q` dense matrix: `p` rows, each of length `q`. -/
def MatWF {α : Type} (A : List (List α)) (p q : Nat) : Prop :=
  A.length = p ∧ ∀ r ∈ A, r.length = q

instance {α : Type} (A : List (List α)) (p q : Nat) : Decidable (MatWF A p q) :=
  inferInstanceAs (Decidable (A.length = p ∧ ∀ r ∈ A, r.length = q))

theorem kron_WF {α : Type} [Mul α] (A B : List (List α)) (p q r s : Nat)
    (hA : MatWF A p q) (hB : MatWF B r s) : MatWF (kron A B) (p * r) (q * s) := by
  obtain ⟨hAl, hAr⟩ := hA
  obtain ⟨hBl, hBr⟩ := hB
  constructor
  · rw [kron, flatMap_length_uniform r _ (fun ar _ => by simp [hBl]), hAl]
  · intro row hrow
    rw [kron, List.mem_flatMap] at hrow
    obtain ⟨ar, har, hrow⟩ := hrow
    rw [List.mem_map] at hrow
    obtain ⟨br, hbr, rfl⟩ := hrow
    rw [flatMap_length_uniform s _ (fun a _ => by simp [hBr br hbr]), hAr ar har]

theorem kron_matEnt {α : Type} [Mul α] [Zero α] (A B : List (List α)) (p q r s : Nat)
    (hA : MatWF A p q) (hB : MatWF B r s) (i j k l : Nat)
    (hi : i < p) (hj : j < q) (hk : k < r) (hl : l < s) :
    matEnt (kron A B) (i * r + k) (j * s + l) = matEnt A i j * matEnt B k l := by
  obtain ⟨hAl, hAr⟩ := hA
  obtain ⟨hBl, hBr⟩ := hB
  have hiA : i < A.length := by omega
  have hkB : k < B.length := by omega
  have hjq : j < A[i].length := by rw [hAr _ (List.getElem_mem hiA)]; omega
  have hls : l < B[k].length := by rw [hBr _ (List.getElem_mem hkB)]; omega
  have hrow : (kron A B).getD (i * r + k) [] =
      A[i].flatMap fun a => B[k].map fun b => a * b := by
    rw [List.getD_eq_getElem?_getD, kron,
      flatMap_getElem?_uniform r _ (fun ar _ => by simp [hBl]) i k (by omega),
      List.getElem?_eq_getElem hiA]
    simp [List.getElem?_eq_getElem hkB]
  have hA' : matEnt A i j = A[i][j] := by
    simp [matEnt, hiA, hjq]
  have hB' : matEnt B k l = B[k][l] := by
    simp [matEnt, hkB, hls]
  have hK : matEnt (kron A B) (i * r + k) (j * s + l) = A[i][j] * B[k][l] := by
    rw [matEnt, hrow, List.getD_eq_getElem?_getD,
      flatMap_getElem?_uniform s _ (fun a _ => by simp [hBr _ (List.getElem_mem hkB)]) j l
        (by omega),
      List.getElem?_eq_getElem hjq]
    simp [List.getElem?_eq_getElem hls]
  rw [hK, hA', hB']

theorem foldl_kron_spec {α : Type} [CommRing α] :
    ∀ (l : List (List (List α))) (A : List (List α)) (p : Nat),
      MatWF A p p → (∀ m ∈ l, MatWF m 2 2) →
      MatWF (l.foldl kron A) (p * 2 ^ l.length) (p * 2 ^ l.length) ∧
      ∀ i j : Nat, i < p * 2 ^ l.length → j < p * 2 ^ l.length →
        matEnt (l.foldl kron A) i j =
          matEnt A (i / 2 ^ l.length) (j / 2 ^ l.length) *
            ∏ t ∈ Finset.range l.length,
              matEnt (l.getD t []) (i / 2 ^ (l.length - 1 - t) % 2)
                (j / 2 ^ (l.length - 1 - t) % 2) := by
  intro l
  induction l with
  | nil =>
    intro A p hA _
    constructor
    · simpa using hA
    · intro i j _ _
      simp
  | cons B l ih =>
    intro A p hA hl
    have hB : MatWF B 2 2 := hl B (List.mem_cons_self ..)
    have hl' : ∀ m ∈ l, MatWF m 2 2 := fun m hm => hl m (List.mem_cons_of_mem _ hm)
    have hAB : MatWF (kron A B) (p * 2) (p * 2) := kron_WF A B p p 2 2 hA hB
    obtain ⟨hwf, hent⟩ := ih (kron A B) (p * 2) hAB hl'
    have epow : p * 2 ^ (B :: l).length = p * 2 * 2 ^ l.length := by
      rw [List.length_cons, pow_succ]
      ring
    constructor
    · rw [List.foldl_cons, epow]
      exact hwf
    · intro i j hi hj
      rw [epow] at hi hj
      rw [List.foldl_cons, hent i j hi hj]
      have hib : i / 2 ^ (l.length + 1) < p := by
        rw [Nat.div_lt_iff_lt_mul (Nat.two_pow_pos _)]
        calc i < p * 2 * 2 ^ l.length := hi
          _ = p * 2 ^ (l.length + 1) := by rw [pow_succ]; ring
      have hjb : j / 2 ^ (l.length + 1) < p := by
        rw [Nat.div_lt_iff_lt_mul (Nat.two_pow_pos _)]
        calc j < p * 2 * 2 ^ l.length := hj
          _ = p * 2 ^ (l.length + 1) := by rw [pow_succ]; ring
      have di : i / 2 ^ l.length = i / 2 ^ (l.length + 1) * 2 + i / 2 ^ l.length % 2 := by
        rw [pow_succ, ← Nat.div_div_eq_div_mul]
        exact (Nat.div_add_mod' _ 2).symm
      have dj : j / 2 ^ l.length = j / 2 ^ (l.length + 1) * 2 + j / 2 ^ l.length % 2 := by
        rw [pow_succ, ← Nat.div_div_eq_div_mul]
        exact (Nat.div_add_mod' _ 2).symm
      have hkr := kron_matEnt A B p p 2 2 hA hB (i / 2 ^ (l.length + 1))
        (j / 2 ^ (l.length + 1)) (i / 2 ^ l.length % 2) (j / 2 ^ l.length % 2)
        hib hjb (Nat.mod_lt _ (by norm_num)) (Nat.mod_lt _ (by norm_num))
      rw [← di, ← dj] at hkr
      rw [hkr]
      simp only [List.length_cons]
      have hQ : (∏ t ∈ Finset.range (l.length + 1),
          matEnt ((B :: l).getD t []) (i / 2 ^ (l.length + 1 - 1 - t) % 2)
            (j / 2 ^ (l.length + 1 - 1 - t) % 2)) =
          (∏ t ∈ Finset.range l.length,
            matEnt (l.getD t []) (i / 2 ^ (l.length - 1 - t) % 2)
              (j / 2 ^ (l.length - 1 - t) % 2)) *
          matEnt B (i / 2 ^ l.length % 2) (j / 2 ^ l.length % 2) := by
        rw [Finset.prod_range_succ']
        have hpr : ∀ t ∈ Finset.range l.length,
            matEnt ((B :: l).getD (t + 1) []) (i / 2 ^ (l.length + 1 - 1 - (t + 1)) % 2)
              (j / 2 ^ (l.length + 1 - 1 - (t + 1)) % 2) =
            matEnt (l.getD t []) (i / 2 ^ (l.length - 1 - t) % 2)
              (j / 2 ^ (l.length - 1 - t) % 2) := by
          intro t _
          have he : l.length + 1 - 1 - (t + 1) = l.length - 1 - t := by omega
          rw [List.getD_cons_succ, he]
        rw [Finset.prod_congr rfl hpr, List.getD_cons_zero,
          show l.length + 1 - 1 - 0 = l.length by omega]
      rw [hQ]
      ring

/-- C7: Kronecker reduction.  `kpa` on the empty list fails with the
`EmptyInput` `ValueError`; on a non-empty list of `k` well-formed 2x2
matrices it succeeds with the `2^k × 2^k` matrix obtained by folding the
list left-to-right with the Kronecker product, the leftmost factor most
significant: entry `(i, j)` is the product over positions `t` of factor
`t`'s entry selected by the `t`-th most significant base-2 digits of `i`
and `j`. -/
theorem kpa_kronecker {α : Type} [CommRing α] (l : List (List (List α)))
    (hl : ∀ m ∈ l, MatWF m 2 2) (hne : l ≠ []) (i j : Nat)
    (hi : i < 2 ^ l.length) (hj : j < 2 ^ l.length) :
    kpa ([] : List (List (List α))) = .error (.valueError emptyInputMsg) ∧
    (kpa l).toOption ≠ none ∧
    MatWF ((kpa l).toOption.getD []) (2 ^ l.length) (2 ^ l.length) ∧
    matEnt ((kpa l).toOption.getD []) i j =
      ∏ t ∈ Finset.range l.length,
        matEnt (l.getD t []) (i / 2 ^ (l.length - 1 - t) % 2)
          (j / 2 ^ (l.length - 1 - t) % 2) := by
  cases l with
  | nil => exact absurd rfl hne
  | cons m rest =>
    have hm : MatWF m 2 2 := hl m (List.mem_cons_self ..)
    obtain ⟨hwf, hent⟩ :=
      foldl_kron_spec rest m 2 hm (fun x hx => hl x (List.mem_cons_of_mem _ hx))
    have e2 : (2 : Nat) * 2 ^ rest.length = 2 ^ (m :: rest).length := by
      rw [List.length_cons, pow_succ]
      ring
    have hgd : (kpa (m :: rest)).toOption.getD [] = rest.foldl kron m := by
      simp [kpa, Except.toOption]
    rw [List.length_cons] at hi hj
    have epow : (2 : Nat) ^ (rest.length + 1) = 2 * 2 ^ rest.length := by
      rw [pow_succ]
      ring
    have hi' : i < 2 * 2 ^ rest.length := by rw [epow] at hi; exact hi
    have hj' : j < 2 * 2 ^ rest.length := by rw [epow] at hj; exact hj
    refine ⟨rfl, by simp [kpa, Except.toOption], ?_, ?_⟩
    · rw [hgd, List.length_cons, epow]
      exact hwf
    · rw [hgd, hent i j hi' hj']
      have him : i / 2 ^ rest.length % 2 = i / 2 ^ rest.length :=
        Nat.mod_eq_of_lt (by
          rw [Nat.div_lt_iff_lt_mul (Nat.two_pow_pos _)]
          exact hi')
      have hjm : j / 2 ^ rest.length % 2 = j / 2 ^ rest.length :=
        Nat.mod_eq_of_lt (by
          rw [Nat.div_lt_iff_lt_mul (Nat.two_pow_pos _)]
          exact hj')
      simp only [List.length_cons]
      rw [Finset.prod_range_succ']
      have hpr : ∀ t ∈ Finset.range rest.length,
          matEnt ((m :: rest).getD (t + 1) [])
            (i / 2 ^ (rest.length + 1 - 1 - (t + 1)) % 2)
            (j / 2 ^ (rest.length + 1 - 1 - (t + 1)) % 2) =
          matEnt (rest.getD t []) (i / 2 ^ (rest.length - 1 - t) % 2)
            (j / 2 ^ (rest.length - 1 - t) % 2) := by
        intro t _
        have he : rest.length + 1 - 1 - (t + 1) = rest.length - 1 - t := by omega
        rw [List.getD_cons_succ, he]
      rw [Finset.prod_congr rfl hpr, List.getD_cons_zero,
        show rest.length + 1 - 1 - 0 = rest.length by omega, him, hjm]
      ring

/-- Witness for C7 on the two-factor list `[X, Z]` of Pauli matrices,
checking the entry formula at `(i, j) = (1, 3)` of the 4x4 result. -/
theorem kpa_kronecker_witness :
    (([[[0, 1], [1, 0]], [[1, 0], [0, -1]]] : List (List (List GaussianInt))) ≠ []) ∧
    (kpa ([[[0, 1], [1, 0]], [[1, 0], [0, -1]]] :
        List (List (List GaussianInt)))).toOption ≠ none ∧
    MatWF ((kpa ([[[0, 1], [1, 0]], [[1, 0], [0, -1]]] :
        List (List (List GaussianInt)))).toOption.getD []) (2 ^ 2) (2 ^ 2) ∧
    matEnt ((kpa ([[[0, 1], [1, 0]], [[1, 0], [0, -1]]] :
        List (List (List GaussianInt)))).toOption.getD []) 1 3 =
      ∏ t ∈ Finset.range 2,
        matEnt (([[[0, 1], [1, 0]], [[1, 0], [0, -1]]] :
          List (List (List GaussianInt))).getD t [])
          (1 / 2 ^ (2 - 1 - t) % 2) (3 / 2 ^ (2 - 1 - t) % 2) := by
  have h := kpa_kronecker ([[[0, 1], [1, 0]], [[1, 0], [0, -1]]] :
    List (List (List GaussianInt))) (by decide) (by decide) 1 3 (by decide) (by decide)
  exact ⟨by decide, h.2.1, h.2.2.1, h.2.2.2⟩
